import Mathlib

/-!
Verification of the Deadlock_prevention repository.

The repository contains two variants of a Banker's-Algorithm deadlock toolkit:
`main.py` (numpy matrices, multi-resource requests) and `app.py`
(dictionary-based state keyed by process/resource identifier strings,
single-resource requests).  Both are embedded below as executable Lean
definitions, translated line by line from the Python source; the unbounded
`while` loops are given an explicit iteration budget (`fuel`) counting loop
iterations, and the termination theorems show that the budget used in the
definitions is never exhausted.
-/

namespace DeadlockPrevention

/-! ## Integer vector helpers (numpy elementwise operations on 1-d arrays) -/

/-- Elementwise `<=` over two integer vectors, as in `np.all(xs <= ys)`. -/
def vecLe (xs ys : List Int) : Bool :=
  (xs.zip ys).all fun p => decide (p.1 ≤ p.2)

/-- Elementwise addition, as in `xs + ys` on numpy arrays. -/
def vecAdd (xs ys : List Int) : List Int :=
  (xs.zip ys).map fun p => p.1 + p.2

/-- Elementwise subtraction, as in `xs - ys` on numpy arrays. -/
def vecSub (xs ys : List Int) : List Int :=
  (xs.zip ys).map fun p => p.1 - p.2

/-! ## `main.py`: `DeadlockToolkit` over numpy matrices -/

/-- One process of the safety scan: its `need` row paired with its
`allocation` row. -/
abbrev PInfo : Type := List Int × List Int

/-- The inner `for i in range(self.processes)` pass of `is_safe_state` in
`main.py`: scan the processes in order, and whenever an unfinished process
has `need[i] <= work`, add its allocation to `work` and mark it finished.
Returns the updated finish flags, the updated work vector, and the `found`
flag. -/
def contPass : List (PInfo × Bool) → List Int → List (PInfo × Bool) × List Int × Bool
  | [], work => ([], work, false)
  | (p, f) :: rest, work =>
    if !f && vecLe p.1 work then
      let r := contPass rest (vecAdd work p.2)
      ((p, true) :: r.1, r.2.1, true)
    else
      let r := contPass rest work
      ((p, f) :: r.1, r.2.1, r.2.2)

/-- The `while False in finish` loop of `is_safe_state` in `main.py`,
with an explicit bound `fuel` on the number of loop iterations. -/
def contLoop : Nat → List (PInfo × Bool) → List Int → Option Bool
  | 0, _, _ => none
  | fuel + 1, ts, work =>
    if ts.any (fun t => !t.2) then
      let r := contPass ts work
      if r.2.2 then contLoop fuel r.1 r.2.1 else some false
    else some true

/-- The state of `main.py`'s `DeadlockToolkit`: available vector,
allocation matrix, maximum matrix and the stored need matrix. -/
structure MainState where
  available : List Int
  allocation : List (List Int)
  maximum : List (List Int)
  need : List (List Int)
deriving DecidableEq

/-- The `(need row, allocation row, finish flag)` records the safety scan of
`main.py` iterates over, in index order, all initially unfinished. -/
def mainTemps (s : MainState) : List (PInfo × Bool) :=
  (s.need.zip s.allocation).map (fun p => (p, false))

/-- `DeadlockToolkit.is_safe_state` of `main.py`.  The loop runs at most
(number of processes + 1) iterations (proved below), so that iteration
budget is used here. -/
def is_safe_state (s : MainState) : Bool :=
  (contLoop ((mainTemps s).length + 1) (mainTemps s) s.available).getD false

/-- The tentative allocation step of `request_resources` in `main.py`:
`available -= request; allocation[pid] += request; need[pid] -= request`. -/
def tentative (s : MainState) (pid : Nat) (req : List Int) : MainState :=
  { available := vecSub s.available req
    allocation := s.allocation.set pid (vecAdd (s.allocation.getD pid []) req)
    maximum := s.maximum
    need := s.need.set pid (vecSub (s.need.getD pid []) req) }

/-- The rollback step of `request_resources` in `main.py`, applied to the
tentative state when the safety check fails:
`available += request; allocation[pid] -= request; need[pid] += request`. -/
def rollback (s : MainState) (pid : Nat) (req : List Int) : MainState :=
  { available := vecAdd (tentative s pid req).available req
    allocation := (tentative s pid req).allocation.set pid
      (vecSub ((tentative s pid req).allocation.getD pid []) req)
    maximum := (tentative s pid req).maximum
    need := (tentative s pid req).need.set pid
      (vecAdd ((tentative s pid req).need.getD pid []) req) }

/-- `DeadlockToolkit.request_resources` of `main.py`.  Returns the state
after the call together with the boolean result. -/
def request_resources (s : MainState) (pid : Nat) (req : List Int) : MainState × Bool :=
  if !(vecLe req (s.need.getD pid [])) then (s, false)
  else if !(vecLe req s.available) then (s, false)
  else if is_safe_state (tentative s pid req) then (tentative s pid req, true)
  else (rollback s pid req, false)

/-- `DeadlockToolkit.release_resources` of `main.py`:
`allocation[pid] -= release; available += release; need[pid] += release`,
with no validation whatsoever. -/
def release_resources (s : MainState) (pid : Nat) (rel : List Int) : MainState :=
  { available := vecAdd s.available rel
    allocation := s.allocation.set pid (vecSub (s.allocation.getD pid []) rel)
    maximum := s.maximum
    need := s.need.set pid (vecAdd (s.need.getD pid []) rel) }

/-- `DeadlockToolkit.__init__(n, m)` followed by
`initialize_system(available, max_matrix)` of `main.py`: allocation starts
as the zero matrix, `need` starts as a copy of `maximum`. -/
def initSystem (n m : Nat) (avail : List Int) (maxMatrix : List (List Int)) : MainState :=
  { available := avail
    allocation := List.replicate n (List.replicate m 0)
    maximum := maxMatrix
    need := maxMatrix }

/-! ## The spec's restart-scan variant of the safety check (for C6) -/

/-- Modelled from the spec: find the first unfinished process whose need is
covered by `work`; if one exists, return the flag list with it marked
finished and the work vector increased by its allocation. -/
def restartFind : List (PInfo × Bool) → List Int → Option (List (PInfo × Bool) × List Int)
  | [], _ => none
  | (p, f) :: rest, work =>
    if !f && vecLe p.1 work then some ((p, true) :: rest, vecAdd work p.2)
    else
      match restartFind rest work with
      | some (rest', w') => some ((p, f) :: rest', w')
      | none => none

/-- Number of unfinished processes in a flag list. -/
def countFalse (ts : List (PInfo × Bool)) : Nat :=
  (ts.filter (fun t => !t.2)).length

/-- Modelled from the spec: the scan restarts from the first process after
each runnable process is finished; stop with `false` when no unfinished
process is runnable, with `true` when all are finished. -/
def restartLoop : Nat → List (PInfo × Bool) → List Int → Option Bool
  | 0, _, _ => none
  | fuel + 1, ts, work =>
    if ts.all (fun t => t.2) then some true
    else
      match restartFind ts work with
      | some (ts', w') => restartLoop fuel ts' w'
      | none => some false

/-- Modelled from the spec: the restart-scan safety check (each restart
finishes exactly one process, so `countFalse ts + 1` iterations always
suffice). -/
def specRestartSafe (ts : List (PInfo × Bool)) (work : List Int) : Bool :=
  (restartLoop (countFalse ts + 1) ts work).getD false

/-- All allocation rows of the scan records have length `m` and hold only
nonnegative entries (the data-model shape of a snapshot). -/
def Good (m : Nat) (ts : List (PInfo × Bool)) : Prop :=
  ∀ x ∈ ts, x.1.2.length = m ∧ ∀ v ∈ x.1.2, 0 ≤ v

/-- Some order of finishing the remaining unfinished processes completes all
of them: each step finishes one unfinished process whose need is covered by
the current work vector. -/
inductive CanFinish : List (PInfo × Bool) → List Int → Prop
  | done (ts : List (PInfo × Bool)) (work : List Int) :
      ts.all (fun t => t.2) = true → CanFinish ts work
  | step (pre : List (PInfo × Bool)) (p : PInfo) (post : List (PInfo × Bool)) (work : List Int) :
      vecLe p.1 work = true →
      CanFinish (pre ++ (p, true) :: post) (vecAdd work p.2) →
      CanFinish (pre ++ (p, false) :: post) work

/-! ## Reachable states of `main.py` (for C5) -/

/-- The stored need matrix agrees everywhere with the recomputation
`maximum - allocation` (out-of-range entries read as `0`/`[]`). -/
def NeedInv (s : MainState) : Prop :=
  ∀ p r : Nat,
    ((s.need.getD p []).getD r 0 : Int) =
      (s.maximum.getD p []).getD r 0 - (s.allocation.getD p []).getD r 0

/-- Shape of a well-formed `main.py` state with `n` processes and `m`
resource types. -/
def ShapeInv (n m : Nat) (s : MainState) : Prop :=
  s.available.length = m ∧ s.allocation.length = n ∧ s.need.length = n ∧
    s.maximum.length = n ∧ (∀ row ∈ s.allocation, row.length = m) ∧
    (∀ row ∈ s.need, row.length = m) ∧ (∀ row ∈ s.maximum, row.length = m)

/-- States reachable through the committed operations of `main.py`:
initialization, requests (granted or denied), and releases, with
well-shaped arguments (numpy raises on shape mismatch, so nothing else
reaches the state). -/
inductive Reachable (n m : Nat) : MainState → Prop
  | init (avail : List Int) (maxMatrix : List (List Int)) :
      avail.length = m → maxMatrix.length = n → (∀ row ∈ maxMatrix, row.length = m) →
      Reachable n m (initSystem n m avail maxMatrix)
  | request (s : MainState) (pid : Nat) (req : List Int) :
      Reachable n m s → pid < n → req.length = m →
      Reachable n m (request_resources s pid req).1
  | release (s : MainState) (pid : Nat) (rel : List Int) :
      Reachable n m s → pid < n → rel.length = m →
      Reachable n m (release_resources s pid rel)

/-! ## Concrete `main.py` states used by the theorems -/

/-- The textbook maximum matrix from `main.py`'s `main()`. -/
def maxM0 : List (List Int) := [[7, 5, 3], [3, 2, 2], [9, 0, 2]]

/-- The initialized textbook system of `main.py`'s `main()`. -/
def mState0 : MainState := initSystem 3 3 [3, 3, 2] maxM0

/-- A one-process, one-resource state holding nothing. -/
def mState7 : MainState :=
  { available := [0], allocation := [[0]], maximum := [[1]], need := [[1]] }

/-! ## `app.py`: `DeadlockToolkit` over identifier-keyed dictionaries

Python dictionaries preserve insertion order, so they are embedded as
association lists; `d.get(k, 0)` becomes `dget`, and `d[k] = v` becomes
`dset` (update in place when the key is present, append otherwise). -/

/-- `d.get(k, 0)` on a `str -> int` dictionary. -/
def dget (d : List (String × Int)) (k : String) : Int :=
  match d.find? (fun kv => kv.1 = k) with
  | some kv => kv.2
  | none => 0

/-- `d[k] = v` on a `str -> int` dictionary: overwrite in place if `k` is
present, append otherwise. -/
def dset (d : List (String × Int)) (k : String) (v : Int) : List (String × Int) :=
  if (d.find? (fun kv => kv.1 = k)).isSome then
    d.map (fun kv => if kv.1 = k then (k, v) else kv)
  else d ++ [(k, v)]

/-- One entry of `self.processes` in `app.py`. -/
structure AppProc where
  allocated : List (String × Int)
  max_needed : List (String × Int)
  status : String
deriving DecidableEq

/-- The state of `app.py`'s `DeadlockToolkit`: `self.resources` maps each
resource identifier to its total capacity, `self.processes` maps each
process identifier to its record. -/
structure AppState where
  resources : List (String × Int)
  processes : List (String × AppProc)
deriving DecidableEq

/-- `self.processes[pid]` (first entry with that key; a dummy record when
the key is absent, which the source never exercises). -/
def pgetD (st : AppState) (pid : String) : AppProc :=
  match st.processes.find? (fun pp => pp.1 = pid) with
  | some pp => pp.2
  | none => ⟨[], [], ""⟩

/-- The derived availability used by `request_resource` in `app.py`:
`resources[rid] - sum(p["allocated"].get(rid, 0) for p in processes)`. -/
def appAvailable (st : AppState) (rid : String) : Int :=
  dget st.resources rid - (st.processes.map (fun pp => dget pp.2.allocated rid)).sum

/-- One entry of `temp_processes` inside `is_safe_state` of `app.py`. -/
structure TempProc where
  allocated : List (String × Int)
  max_needed : List (String × Int)
  finished : Bool
deriving DecidableEq

/-- The `temp_processes` built at the start of `is_safe_state` in `app.py`:
every process unfinished, the requesting process carrying `temp_allocated`
in place of its live allocation. -/
def appSafeInit (st : AppState) (pid : String) (tempAlloc : List (String × Int)) :
    List (String × TempProc) :=
  st.processes.map (fun pp =>
    (pp.1, ⟨if pp.1 = pid then tempAlloc else pp.2.allocated, pp.2.max_needed, false⟩))

/-- The `available` dictionary computed at the start of `is_safe_state` in
`app.py`: derived from the LIVE allocations (not from `temp_allocated`). -/
def appSafeAvail (st : AppState) : List (String × Int) :=
  st.resources.map (fun rc =>
    (rc.1, rc.2 - (st.processes.map (fun pp => dget pp.2.allocated rc.1)).sum))

/-- The `can_run` check of `is_safe_state` in `app.py`: every resource's
remaining need `max_needed - allocated` is covered by `available`. -/
def canRun (rkeys : List String) (tp : TempProc) (avail : List (String × Int)) : Bool :=
  rkeys.all (fun rid =>
    decide (dget tp.max_needed rid - dget tp.allocated rid ≤ dget avail rid))

/-- Returning a finished process's allocation to `available`, one resource
at a time, as in `app.py`. -/
def addAlloc (rkeys : List String) (tp : TempProc) (avail : List (String × Int)) :
    List (String × Int) :=
  rkeys.foldl (fun av rid => dset av rid (dget av rid + dget tp.allocated rid)) avail

/-- The `for pid in temp_processes` pass of `is_safe_state` in `app.py`:
run every unfinished process whose need is covered, updating `available`
as the scan proceeds.  Returns the updated records, the updated
availability and the `found` flag. -/
def appPass (rkeys : List String) :
    List (String × TempProc) → List (String × Int) →
      List (String × TempProc) × List (String × Int) × Bool
  | [], avail => ([], avail, false)
  | (pid, tp) :: rest, avail =>
    if !tp.finished && canRun rkeys tp avail then
      let r := appPass rkeys rest (addAlloc rkeys tp avail)
      ((pid, { tp with finished := true }) :: r.1, r.2.1, true)
    else
      let r := appPass rkeys rest avail
      ((pid, tp) :: r.1, r.2.1, r.2.2)

/-- The `while True` loop of `is_safe_state` in `app.py`, with an explicit
iteration budget: after each pass, return `all finished` when nothing ran,
return `true` when everything is finished, loop otherwise. -/
def appSafeIter (rkeys : List String) :
    Nat → List (String × TempProc) → List (String × Int) → Option Bool
  | 0, _, _ => none
  | fuel + 1, tps, avail =>
    let r := appPass rkeys tps avail
    if !r.2.2 then some (r.1.all (fun t => t.2.finished))
    else if r.1.all (fun t => t.2.finished) then some true
    else appSafeIter rkeys fuel r.1 r.2.1

/-- `DeadlockToolkit.is_safe_state` of `app.py` (the loop runs at most
(number of processes + 1) iterations, proved below). -/
def appIsSafe (st : AppState) (pid : String) (tempAlloc : List (String × Int)) : Bool :=
  (appSafeIter (st.resources.map (fun rc => rc.1)) (st.processes.length + 1)
    (appSafeInit st pid tempAlloc) (appSafeAvail st)).getD false

/-- `DeadlockToolkit.request_resource` of `app.py`.  Returns the state after
the call together with the boolean result. -/
def appRequest (st : AppState) (pid rid : String) (amount : Int) : AppState × Bool :=
  if ((st.resources.find? (fun rc => rc.1 = rid)).isNone ||
      (st.processes.find? (fun pp => pp.1 = pid)).isNone) then (st, false)
  else if amount > dget (pgetD st pid).max_needed rid then (st, false)
  else if appAvailable st rid < amount then (st, false)
  else
    let tempAlloc := dset (pgetD st pid).allocated rid
      (dget (pgetD st pid).allocated rid + amount)
    if appIsSafe st pid tempAlloc then
      ({ st with processes := st.processes.map (fun pp =>
          if pp.1 = pid then
            (pp.1, { pp.2 with allocated := dset pp.2.allocated rid (dget tempAlloc rid) })
          else pp) }, true)
    else (st, false)

/-- The remaining need `max_needed[pid][rid] - allocated[pid][rid]` used by
`detect_deadlock` in `app.py`. -/
def needOf (st : AppState) (pid rid : String) : Int :=
  dget (pgetD st pid).max_needed rid - dget (pgetD st pid).allocated rid

/-- `allocated[pid].get(rid, 0)` on the live state. -/
def allocOf (st : AppState) (pid rid : String) : Int :=
  dget (pgetD st pid).allocated rid

/-- The `waiting` map of `detect_deadlock` in `app.py`: the resources (in
dictionary order) for which `pid` has positive remaining need. -/
def waiting (st : AppState) (pid : String) : List String :=
  (st.resources.map (fun rc => rc.1)).filter (fun rid => decide (0 < needOf st pid rid))

/-- A fold with Python's early-`return True` semantics, threading the
mutable `visited` set through the branches. -/
def earlyExitFold (f : α → σ → Bool × σ) : List α → σ → Bool × σ
  | [], s => (false, s)
  | x :: xs, s =>
    let r := f x s
    if r.1 then (true, r.2) else earlyExitFold f xs r.2

/-- The recursive `has_cycle(pid, path)` of `detect_deadlock` in `app.py`,
with the shared mutable `visited` set threaded explicitly and an explicit
recursion-depth budget (each deepening call first adds a fresh identifier
to `visited`, so depth never exceeds the process count plus one). -/
def hasCycle (st : AppState) : Nat → String → List String → List String → Bool × List String
  | 0, _, _, visited => (false, visited)
  | fuel + 1, pid, path, visited =>
    if pid ∈ path then (true, visited)
    else if pid ∈ visited then (false, visited)
    else
      earlyExitFold (fun rid vis =>
        earlyExitFold (fun qid vis2 =>
          if 0 < allocOf st qid rid then hasCycle st fuel qid (path ++ [pid]) vis2
          else (false, vis2)) (st.processes.map (fun pp => pp.1)) vis)
        (waiting st pid) (pid :: visited)

/-- `DeadlockToolkit.detect_deadlock` of `app.py`: every process from which
`has_cycle` succeeds, with `visited` cleared before each top-level call. -/
def appDetect (st : AppState) : List String :=
  (st.processes.map (fun pp => pp.1)).filter
    (fun pid => (hasCycle st (st.processes.length + 2) pid [] []).1)

/-- `DeadlockToolkit.recover_deadlock` of `app.py`: if the detected list is
nonempty, take its first process, add its allocation of every resource to
`self.resources` while zeroing the allocation entry, and mark the process
`Terminated`.  Returns the state and the reported message. -/
def appRecover (st : AppState) : AppState × String :=
  match appDetect st with
  | [] => (st, "No deadlock detected")
  | pid :: _ =>
    let rkeys := st.resources.map (fun rc => rc.1)
    let st' := rkeys.foldl (fun acc rid =>
      { acc with
        resources := dset acc.resources rid
          (dget acc.resources rid + dget (pgetD acc pid).allocated rid),
        processes := acc.processes.map (fun pp =>
          if pp.1 = pid then (pp.1, { pp.2 with allocated := dset pp.2.allocated rid 0 })
          else pp) }) st
    ({ st' with processes := st'.processes.map (fun pp =>
        if pp.1 = pid then (pp.1, { pp.2 with status := "Terminated" }) else pp) },
      "Terminated process " ++ pid ++ " to recover from deadlock")

/-- Replace every process's `status` field according to `f` (the safety
check never reads `status`, which the status-irrelevance theorem states). -/
def mapStatus (f : String → String) (st : AppState) : AppState :=
  { st with processes := st.processes.map (fun pp => (pp.1, { pp.2 with status := f pp.1 })) }

/-- Number of unfinished records of the `app.py` safety scan. -/
def countUnfin (tps : List (String × TempProc)) : Nat :=
  (tps.filter (fun t => !t.2.finished)).length

/-! ## Concrete `app.py` states used by the theorems -/

/-- Capacity 3 of `R0`; `P0` holds 1 with maximum claim 3, `P1` holds 0
with maximum claim 2. -/
def appSt2 : AppState :=
  { resources := [("R0", 3)]
    processes := [("P0", ⟨[("R0", 1)], [("R0", 3)], "Running"⟩),
                  ("P1", ⟨[("R0", 0)], [("R0", 2)], "Running"⟩)] }

/-- Capacity 2 of `R0`; `P0` holds 1 with maximum claim 2. -/
def appSt3 : AppState :=
  { resources := [("R0", 2)]
    processes := [("P0", ⟨[("R0", 1)], [("R0", 2)], "Running"⟩)] }

/-- Capacity 10 of `R0`; `P0` holds 2 with maximum claim 3 (remaining need
1), `P1` holds nothing and claims nothing. -/
def appSt4 : AppState :=
  { resources := [("R0", 10)]
    processes := [("P0", ⟨[("R0", 2)], [("R0", 3)], "Running"⟩),
                  ("P1", ⟨[("R0", 0)], [("R0", 0)], "Running"⟩)] }

/-- Capacity 3 of `R0`; the only process `P0` is Terminated with maximum
claim 5 and zero allocation, `P1` is Running with zero claim. -/
def appSt9 : AppState :=
  { resources := [("R0", 3)]
    processes := [("P0", ⟨[("R0", 0)], [("R0", 5)], "Terminated"⟩),
                  ("P1", ⟨[("R0", 0)], [("R0", 0)], "Running"⟩)] }

/-- `appSt9` with the Terminated process removed. -/
def appSt9r : AppState :=
  { resources := [("R0", 3)]
    processes := [("P1", ⟨[("R0", 0)], [("R0", 0)], "Running"⟩)] }

/-- Capacity 2 of `R0`; the only process `P0` holds 1 and claims 2, so its
unmet need is for a resource held by no other process. -/
def appSt8 : AppState :=
  { resources := [("R0", 2)]
    processes := [("P0", ⟨[("R0", 1)], [("R0", 2)], "Running"⟩)] }

/-! # Helper lemmas -/

theorem set_getD_self {α : Type} (d : α) :
    ∀ (l : List α) (i : Nat), i < l.length → l.set i (l.getD i d) = l := by
  intro l
  induction l with
  | nil => intro i h; simp at h
  | cons x xs ih =>
    intro i h
    cases i with
    | zero => rfl
    | succ j =>
      have h' : j < xs.length := by simpa using h
      show x :: xs.set j ((x :: xs).getD (j + 1) d) = x :: xs
      rw [show (x :: xs).getD (j + 1) d = xs.getD j d by simp [List.getD]]
      rw [ih j h']

theorem getD_set_self {α : Type} (d a : α) (l : List α) (i : Nat) (h : i < l.length) :
    (l.set i a).getD i d = a := by
  simp [List.getD_eq_getElem?_getD, List.getElem?_set_self, h]

theorem getD_set_ne {α : Type} (d a : α) (l : List α) {i j : Nat} (h : i ≠ j) :
    (l.set i a).getD j d = l.getD j d := by
  simp [List.getD_eq_getElem?_getD, List.getElem?_set_ne h]

theorem getD_replicate_lt {α : Type} (d a : α) {n i : Nat} (h : i < n) :
    (List.replicate n a).getD i d = a := by
  simp [List.getD_eq_getElem?_getD, List.getElem?_replicate, h]

/-! ## Vector lemmas -/

@[simp] theorem vecLe_nil_left (ys : List Int) : vecLe [] ys = true := rfl

@[simp] theorem vecLe_nil_right (xs : List Int) : vecLe xs [] = true := by
  cases xs <;> rfl

@[simp] theorem vecLe_cons (x y : Int) (xs ys : List Int) :
    vecLe (x :: xs) (y :: ys) = (decide (x ≤ y) && vecLe xs ys) := rfl

@[simp] theorem vecAdd_nil_left (ys : List Int) : vecAdd [] ys = [] := rfl

@[simp] theorem vecAdd_nil_right (xs : List Int) : vecAdd xs [] = [] := by
  cases xs <;> rfl

@[simp] theorem vecAdd_cons (x y : Int) (xs ys : List Int) :
    vecAdd (x :: xs) (y :: ys) = (x + y) :: vecAdd xs ys := rfl

@[simp] theorem vecSub_nil_left (ys : List Int) : vecSub [] ys = [] := rfl

@[simp] theorem vecSub_nil_right (xs : List Int) : vecSub xs [] = [] := by
  cases xs <;> rfl

@[simp] theorem vecSub_cons (x y : Int) (xs ys : List Int) :
    vecSub (x :: xs) (y :: ys) = (x - y) :: vecSub xs ys := rfl

theorem vecAdd_length (xs ys : List Int) :
    (vecAdd xs ys).length = min xs.length ys.length := by
  simp [vecAdd]

theorem vecSub_length (xs ys : List Int) :
    (vecSub xs ys).length = min xs.length ys.length := by
  simp [vecSub]

theorem vecSub_add_cancel : ∀ (xs ys : List Int), xs.length = ys.length →
    vecAdd (vecSub xs ys) ys = xs := by
  intro xs
  induction xs with
  | nil => intro ys h; cases ys <;> simp_all
  | cons x xs ih =>
    intro ys h
    cases ys with
    | nil => simp at h
    | cons y ys => simp [ih ys (by simpa using h)]

theorem vecAdd_sub_cancel : ∀ (xs ys : List Int), xs.length = ys.length →
    vecSub (vecAdd xs ys) ys = xs := by
  intro xs
  induction xs with
  | nil => intro ys h; cases ys <;> simp_all
  | cons x xs ih =>
    intro ys h
    cases ys with
    | nil => simp at h
    | cons y ys => simp [ih ys (by simpa using h)]

theorem vecAdd_getD {xs ys : List Int} {r : Nat} (hr : r < xs.length)
    (h : xs.length = ys.length) :
    (vecAdd xs ys).getD r 0 = xs.getD r 0 + ys.getD r 0 := by
  induction xs generalizing ys r with
  | nil => simp at hr
  | cons x xs ih =>
    cases ys with
    | nil => simp at h
    | cons y ys =>
      cases r with
      | zero => rfl
      | succ j =>
        show (vecAdd xs ys).getD j 0 = xs.getD j 0 + ys.getD j 0
        exact ih (by simpa using hr) (by simpa using h)

theorem vecSub_getD {xs ys : List Int} {r : Nat} (hr : r < xs.length)
    (h : xs.length = ys.length) :
    (vecSub xs ys).getD r 0 = xs.getD r 0 - ys.getD r 0 := by
  induction xs generalizing ys r with
  | nil => simp at hr
  | cons x xs ih =>
    cases ys with
    | nil => simp at h
    | cons y ys =>
      cases r with
      | zero => rfl
      | succ j =>
        show (vecSub xs ys).getD j 0 = xs.getD j 0 - ys.getD j 0
        exact ih (by simpa using hr) (by simpa using h)

/-- Finishing a process with nonnegative allocation keeps every runnable
process runnable: the work vector only grows. -/
theorem vecLe_vecAdd_right {nd w a : List Int} (h : vecLe nd w = true)
    (hlen : a.length = w.length) (hpos : ∀ v ∈ a, 0 ≤ v) :
    vecLe nd (vecAdd w a) = true := by
  induction nd generalizing w a with
  | nil => simp
  | cons x nd ih =>
    cases w with
    | nil => simp
    | cons y w =>
      cases a with
      | nil => simp at hlen
      | cons z a =>
        simp only [vecLe_cons, Bool.and_eq_true, decide_eq_true_eq] at h
        have hz : 0 ≤ z := hpos z (by simp)
        simp only [vecAdd_cons, vecLe_cons, Bool.and_eq_true, decide_eq_true_eq]
        exact ⟨by omega, ih h.2 (by simpa using hlen) (fun v hv => hpos v (by simp [hv]))⟩

theorem vecAdd_comm2 : ∀ (w a b : List Int),
    vecAdd (vecAdd w a) b = vecAdd (vecAdd w b) a := by
  intro w
  induction w with
  | nil => intro a b; simp
  | cons x w ih =>
    intro a b
    cases a with
    | nil => cases b <;> simp
    | cons y a =>
      cases b with
      | nil => simp
      | cons z b => simp [ih a b]; omega

/-! # Claim theorems -/

/-- Claim C7 counterexample: `release_resources` in `main.py` performs no
validation at all.  Releasing 1 unit from a process holding 0 changes the
state and drives the allocation entry to `-1`, so the claim that an
over-release fails with `InvalidRelease` and leaves the state unchanged is
false on the code. -/
theorem C7_counterexample :
    ((release_resources mState7 0 [1]).allocation.getD 0 []).getD 0 0 = -1 ∧
      release_resources mState7 0 [1] ≠ mState7 := by
  constructor
  · rfl
  · decide

/-- Claim C7 (amended): `release_resources` applies the release arithmetic
unconditionally; whenever some component of the release vector exceeds the
corresponding allocation entry, the resulting state stores a negative
allocation entry for that process (nothing fails and nothing is rolled
back). -/
theorem C7_release_unvalidated (s : MainState) (pid : Nat) (rel : List Int)
    (hpid : pid < s.allocation.length)
    (hrow : (s.allocation.getD pid []).length = rel.length)
    (hover : ∃ r : Nat, r < rel.length ∧
      (s.allocation.getD pid []).getD r 0 < rel.getD r 0) :
    ∃ r : Nat, ((release_resources s pid rel).allocation.getD pid []).getD r 0 < 0 := by
  obtain ⟨r, hr, hlt⟩ := hover
  refine ⟨r, ?_⟩
  have hset : (release_resources s pid rel).allocation.getD pid [] =
      vecSub (s.allocation.getD pid []) rel := by
    simp only [release_resources]
    exact getD_set_self _ _ _ _ (by simpa using hpid)
  rw [hset, vecSub_getD (by omega) hrow]
  omega

/-- Claim C7 witness: the amended statement at the concrete one-process
state holding nothing, releasing one unit. -/
theorem C7_release_unvalidated_witness :
    ∃ r : Nat, ((release_resources mState7 0 [1]).allocation.getD 0 []).getD r 0 < 0 :=
  C7_release_unvalidated mState7 0 [1] (by decide) (by decide)
    ⟨0, by decide, by decide⟩

/-- A row read in range belongs to the matrix. -/
theorem getD_mem_of_lt {l : List (List Int)} {i : Nat} (h : i < l.length) :
    l.getD i [] ∈ l := by
  rw [List.getD_eq_getElem l [] h]
  exact List.getElem_mem h

/-- The rollback of `request_resources` in `main.py` restores the state
exactly, on any well-shaped state. -/
theorem rollback_eq (s : MainState) (pid : Nat) (req : List Int)
    (hA : s.available.length = req.length)
    (hAl : ∀ row ∈ s.allocation, row.length = req.length)
    (hNd : ∀ row ∈ s.need, row.length = req.length) :
    rollback s pid req = s := by
  have hav : (rollback s pid req).available = s.available := by
    show vecAdd (vecSub s.available req) req = s.available
    exact vecSub_add_cancel _ _ hA
  have hal : (rollback s pid req).allocation = s.allocation := by
    show (s.allocation.set pid (vecAdd (s.allocation.getD pid []) req)).set pid
        (vecSub ((s.allocation.set pid (vecAdd (s.allocation.getD pid []) req)).getD pid [])
          req) = s.allocation
    by_cases hpid : pid < s.allocation.length
    · have hrow : (s.allocation.getD pid []).length = req.length :=
        hAl _ (getD_mem_of_lt hpid)
      rw [getD_set_self [] _ _ _ (by simpa using hpid)]
      rw [vecAdd_sub_cancel _ _ hrow]
      rw [List.set_set]
      exact set_getD_self [] _ _ hpid
    · have hle : s.allocation.length ≤ pid := by omega
      rw [List.set_eq_of_length_le hle, List.set_eq_of_length_le hle]
  have hnd : (rollback s pid req).need = s.need := by
    show (s.need.set pid (vecSub (s.need.getD pid []) req)).set pid
        (vecAdd ((s.need.set pid (vecSub (s.need.getD pid []) req)).getD pid []) req) =
          s.need
    by_cases hpid : pid < s.need.length
    · have hrow : (s.need.getD pid []).length = req.length :=
        hNd _ (getD_mem_of_lt hpid)
      rw [getD_set_self [] _ _ _ (by simpa using hpid)]
      rw [vecSub_add_cancel _ _ hrow]
      rw [List.set_set]
      exact set_getD_self [] _ _ hpid
    · have hle : s.need.length ≤ pid := by omega
      rw [List.set_eq_of_length_le hle, List.set_eq_of_length_le hle]
  have hmx : (rollback s pid req).maximum = s.maximum := rfl
  calc rollback s pid req
      = ⟨(rollback s pid req).available, (rollback s pid req).allocation,
          (rollback s pid req).maximum, (rollback s pid req).need⟩ := rfl
    _ = ⟨s.available, s.allocation, s.maximum, s.need⟩ := by rw [hav, hal, hmx, hnd]
    _ = s := rfl

/-- A denied `request_resources` call in `main.py` returns exactly the
original state (the first two checks return before mutating, and the
unsafe branch rolls back exactly). -/
theorem request_denied_eq (s : MainState) (pid : Nat) (req : List Int)
    (hA : s.available.length = req.length)
    (hAl : ∀ row ∈ s.allocation, row.length = req.length)
    (hNd : ∀ row ∈ s.need, row.length = req.length) :
    (request_resources s pid req).2 = false → (request_resources s pid req).1 = s := by
  unfold request_resources
  split
  · intro _; rfl
  · split
    · intro _; rfl
    · split
      · intro h; simp at h
      · intro _; exact rollback_eq s pid req hA hAl hNd

/-- A denied `request_resource` call in `app.py` returns exactly the
original state (every `return False` path precedes the single mutation). -/
theorem appRequest_denied_eq (st : AppState) (pid rid : String) (amount : Int) :
    (appRequest st pid rid amount).2 = false → (appRequest st pid rid amount).1 = st := by
  unfold appRequest
  split
  · intro _; rfl
  · split
    · intro _; rfl
    · split
      · intro _; rfl
      · dsimp only
        split
        · intro h; simp at h
        · intro _; rfl

/-- Claim C1: for every reachable state and every denied request (unknown
entity, exceeding the maximum claim, insufficient availability, or unsafe
resulting state), the allocation matrix, the need matrix and the available
vector after the request operation are exactly the values before the call —
in `main.py` (first conjunct, on well-shaped states) and in `app.py`
(second conjunct, unconditionally). -/
theorem C1_denied_request_state_unchanged :
    (∀ (s : MainState) (pid : Nat) (req : List Int),
      s.available.length = req.length →
      (∀ row ∈ s.allocation, row.length = req.length) →
      (∀ row ∈ s.need, row.length = req.length) →
      (request_resources s pid req).2 = false → (request_resources s pid req).1 = s) ∧
    (∀ (st : AppState) (pid rid : String) (amount : Int),
      (appRequest st pid rid amount).2 = false → (appRequest st pid rid amount).1 = st) :=
  ⟨fun s pid req hA hAl hNd => request_denied_eq s pid req hA hAl hNd,
   fun st pid rid amount => appRequest_denied_eq st pid rid amount⟩

/-- Claim C1 witness: a `main.py` request denied for exceeding the need,
and an `app.py` request denied for an unknown process identifier, both
leave their concrete states untouched. -/
theorem C1_denied_request_state_unchanged_witness :
    (request_resources mState0 0 [9, 9, 9]).1 = mState0 ∧
      (appRequest appSt4 "PX" "R0" 1).1 = appSt4 :=
  ⟨C1_denied_request_state_unchanged.1 mState0 0 [9, 9, 9] (by decide) (by decide)
      (by decide) (by decide),
   C1_denied_request_state_unchanged.2 appSt4 "PX" "R0" 1 (by decide)⟩

/-! ## C5: the stored need matrix always equals `maximum - allocation` -/

theorem initSystem_shapeInv (n m : Nat) (avail : List Int) (maxMatrix : List (List Int))
    (ha : avail.length = m) (hm : maxMatrix.length = n)
    (hrows : ∀ row ∈ maxMatrix, row.length = m) :
    ShapeInv n m (initSystem n m avail maxMatrix) := by
  refine ⟨ha, by simp [initSystem], hm, hm, ?_, hrows, hrows⟩
  intro row hrow
  rw [List.eq_of_mem_replicate hrow]
  simp

theorem initSystem_needInv (n m : Nat) (avail : List Int) (maxMatrix : List (List Int)) :
    NeedInv (initSystem n m avail maxMatrix) := by
  intro p r
  show ((maxMatrix.getD p []).getD r 0 : Int) = (maxMatrix.getD p []).getD r 0 -
    ((List.replicate n (List.replicate m (0 : Int))).getD p []).getD r 0
  have hz : ((List.replicate n (List.replicate m (0 : Int))).getD p []).getD r 0 = 0 := by
    by_cases hp : p < n
    · rw [getD_replicate_lt _ _ hp]
      by_cases hr : r < m
      · rw [getD_replicate_lt _ _ hr]
      · rw [List.getD_eq_default _ _ (by simp; omega)]
    · rw [List.getD_eq_default (List.replicate n (List.replicate m (0 : Int))) []
        (by simp; omega)]
      simp
  rw [hz]
  omega

theorem tentative_shapeInv {n m : Nat} {s : MainState} (pid : Nat) {req : List Int}
    (h : ShapeInv n m s) (hpid : pid < n) (hreq : req.length = m) :
    ShapeInv n m (tentative s pid req) := by
  obtain ⟨hA, hAl, hNd, hMx, hAlr, hNdr, hMxr⟩ := h
  refine ⟨?_, ?_, ?_, hMx, ?_, ?_, hMxr⟩
  · show (vecSub s.available req).length = m
    rw [vecSub_length, hA, hreq]; omega
  · show (s.allocation.set pid _).length = n
    rw [List.length_set]; exact hAl
  · show (s.need.set pid _).length = n
    rw [List.length_set]; exact hNd
  · intro row hrow
    rcases List.mem_or_eq_of_mem_set hrow with hmem | heq
    · exact hAlr row hmem
    · subst heq
      rw [vecAdd_length, hAlr _ (getD_mem_of_lt (by omega)), hreq]; omega
  · intro row hrow
    rcases List.mem_or_eq_of_mem_set hrow with hmem | heq
    · exact hNdr row hmem
    · subst heq
      rw [vecSub_length, hNdr _ (getD_mem_of_lt (by omega)), hreq]; omega

theorem tentative_needInv {n m : Nat} {s : MainState} (pid : Nat) {req : List Int}
    (h : ShapeInv n m s) (hinv : NeedInv s) (hpid : pid < n) (hreq : req.length = m) :
    NeedInv (tentative s pid req) := by
  obtain ⟨hA, hAl, hNd, hMx, hAlr, hNdr, hMxr⟩ := h
  intro p r
  by_cases hp : p = pid
  · subst hp
    have hnrow : (s.need.getD p []).length = m := hNdr _ (getD_mem_of_lt (by omega))
    have harow : (s.allocation.getD p []).length = m := hAlr _ (getD_mem_of_lt (by omega))
    have h1 : (tentative s p req).need.getD p [] = vecSub (s.need.getD p []) req := by
      show (s.need.set p _).getD p [] = _
      exact getD_set_self [] _ _ _ (by omega)
    have h2 : (tentative s p req).allocation.getD p [] =
        vecAdd (s.allocation.getD p []) req := by
      show (s.allocation.set p _).getD p [] = _
      exact getD_set_self [] _ _ _ (by omega)
    have h3 : (tentative s p req).maximum = s.maximum := rfl
    rw [h1, h2, h3]
    by_cases hr : r < m
    · rw [vecSub_getD (by omega) (by omega), vecAdd_getD (by omega) (by omega)]
      have := hinv p r
      omega
    · have e1 : (vecSub (s.need.getD p []) req).getD r 0 = 0 :=
        List.getD_eq_default _ _ (by rw [vecSub_length]; omega)
      have e2 : (vecAdd (s.allocation.getD p []) req).getD r 0 = 0 :=
        List.getD_eq_default _ _ (by rw [vecAdd_length]; omega)
      have e3 : (s.maximum.getD p []).getD r 0 = 0 :=
        List.getD_eq_default _ _ (by rw [hMxr _ (getD_mem_of_lt (by omega))]; omega)
      rw [e1, e2, e3]
      omega
  · have h1 : (tentative s pid req).need.getD p [] = s.need.getD p [] := by
      show (s.need.set pid _).getD p [] = _
      exact getD_set_ne [] _ _ (fun hc => hp hc.symm)
    have h2 : (tentative s pid req).allocation.getD p [] = s.allocation.getD p [] := by
      show (s.allocation.set pid _).getD p [] = _
      exact getD_set_ne [] _ _ (fun hc => hp hc.symm)
    have h3 : (tentative s pid req).maximum = s.maximum := rfl
    rw [h1, h2, h3]
    exact hinv p r

theorem release_shapeInv {n m : Nat} {s : MainState} (pid : Nat) {rel : List Int}
    (h : ShapeInv n m s) (hpid : pid < n) (hrel : rel.length = m) :
    ShapeInv n m (release_resources s pid rel) := by
  obtain ⟨hA, hAl, hNd, hMx, hAlr, hNdr, hMxr⟩ := h
  refine ⟨?_, ?_, ?_, hMx, ?_, ?_, hMxr⟩
  · show (vecAdd s.available rel).length = m
    rw [vecAdd_length, hA, hrel]; omega
  · show (s.allocation.set pid _).length = n
    rw [List.length_set]; exact hAl
  · show (s.need.set pid _).length = n
    rw [List.length_set]; exact hNd
  · intro row hrow
    rcases List.mem_or_eq_of_mem_set hrow with hmem | heq
    · exact hAlr row hmem
    · subst heq
      rw [vecSub_length, hAlr _ (getD_mem_of_lt (by omega)), hrel]; omega
  · intro row hrow
    rcases List.mem_or_eq_of_mem_set hrow with hmem | heq
    · exact hNdr row hmem
    · subst heq
      rw [vecAdd_length, hNdr _ (getD_mem_of_lt (by omega)), hrel]; omega

theorem release_needInv {n m : Nat} {s : MainState} (pid : Nat) {rel : List Int}
    (h : ShapeInv n m s) (hinv : NeedInv s) (hpid : pid < n) (hrel : rel.length = m) :
    NeedInv (release_resources s pid rel) := by
  obtain ⟨hA, hAl, hNd, hMx, hAlr, hNdr, hMxr⟩ := h
  intro p r
  by_cases hp : p = pid
  · subst hp
    have hnrow : (s.need.getD p []).length = m := hNdr _ (getD_mem_of_lt (by omega))
    have harow : (s.allocation.getD p []).length = m := hAlr _ (getD_mem_of_lt (by omega))
    have h1 : (release_resources s p rel).need.getD p [] =
        vecAdd (s.need.getD p []) rel := by
      show (s.need.set p _).getD p [] = _
      exact getD_set_self [] _ _ _ (by omega)
    have h2 : (release_resources s p rel).allocation.getD p [] =
        vecSub (s.allocation.getD p []) rel := by
      show (s.allocation.set p _).getD p [] = _
      exact getD_set_self [] _ _ _ (by omega)
    have h3 : (release_resources s p rel).maximum = s.maximum := rfl
    rw [h1, h2, h3]
    by_cases hr : r < m
    · rw [vecAdd_getD (by omega) (by omega), vecSub_getD (by omega) (by omega)]
      have := hinv p r
      omega
    · have e1 : (vecAdd (s.need.getD p []) rel).getD r 0 = 0 :=
        List.getD_eq_default _ _ (by rw [vecAdd_length]; omega)
      have e2 : (vecSub (s.allocation.getD p []) rel).getD r 0 = 0 :=
        List.getD_eq_default _ _ (by rw [vecSub_length]; omega)
      have e3 : (s.maximum.getD p []).getD r 0 = 0 :=
        List.getD_eq_default _ _ (by rw [hMxr _ (getD_mem_of_lt (by omega))]; omega)
      rw [e1, e2, e3]
      omega
  · have h1 : (release_resources s pid rel).need.getD p [] = s.need.getD p [] := by
      show (s.need.set pid _).getD p [] = _
      exact getD_set_ne [] _ _ (fun hc => hp hc.symm)
    have h2 : (release_resources s pid rel).allocation.getD p [] =
        s.allocation.getD p [] := by
      show (s.allocation.set pid _).getD p [] = _
      exact getD_set_ne [] _ _ (fun hc => hp hc.symm)
    have h3 : (release_resources s pid rel).maximum = s.maximum := rfl
    rw [h1, h2, h3]
    exact hinv p r

/-- Every state reachable through the committed operations of `main.py` is
well-shaped and satisfies the need-matrix invariant. -/
theorem reachable_inv {n m : Nat} {s : MainState} (h : Reachable n m s) :
    ShapeInv n m s ∧ NeedInv s := by
  induction h with
  | init avail maxMatrix ha hm hrows =>
    exact ⟨initSystem_shapeInv n m avail maxMatrix ha hm hrows,
           initSystem_needInv n m avail maxMatrix⟩
  | request s pid req _ hpid hreq ih =>
    have hA : s.available.length = req.length := by rw [ih.1.1, hreq]
    have hAl : ∀ row ∈ s.allocation, row.length = req.length := by
      intro row hrow; rw [ih.1.2.2.2.2.1 row hrow, hreq]
    have hNd : ∀ row ∈ s.need, row.length = req.length := by
      intro row hrow; rw [ih.1.2.2.2.2.2.1 row hrow, hreq]
    unfold request_resources
    split
    · exact ih
    · split
      · exact ih
      · split
        · exact ⟨tentative_shapeInv pid ih.1 hpid hreq,
                 tentative_needInv pid ih.1 ih.2 hpid hreq⟩
        · show ShapeInv n m (rollback s pid req, false).1 ∧ NeedInv (rollback s pid req, false).1
          rw [show (rollback s pid req, false).1 = rollback s pid req from rfl,
              rollback_eq s pid req hA hAl hNd]
          exact ih
  | release s pid rel _ hpid hrel ih =>
    exact ⟨release_shapeInv pid ih.1 hpid hrel,
           release_needInv pid ih.1 ih.2 hpid hrel⟩

/-- Claim C5: after every committed `main.py` operation (initialization,
requests — granted or denied — and releases), the stored need matrix equals
the full recomputation `maximum - allocation` entrywise. -/
theorem C5_need_equals_max_minus_allocation (n m : Nat) (s : MainState)
    (h : Reachable n m s) :
    ∀ p r : Nat, ((s.need.getD p []).getD r 0 : Int) =
      (s.maximum.getD p []).getD r 0 - (s.allocation.getD p []).getD r 0 :=
  (reachable_inv h).2

/-- Claim C5 witness: the invariant evaluated after initializing the
textbook system and issuing the `P1 += [1,0,2]` request. -/
theorem C5_need_equals_max_minus_allocation_witness :
    (((request_resources mState0 1 [1, 0, 2]).1.need.getD 1 []).getD 2 0 : Int) =
      ((request_resources mState0 1 [1, 0, 2]).1.maximum.getD 1 []).getD 2 0 -
        ((request_resources mState0 1 [1, 0, 2]).1.allocation.getD 1 []).getD 2 0 :=
  C5_need_equals_max_minus_allocation 3 3 _
    (Reachable.request mState0 1 [1, 0, 2]
      (Reachable.init [3, 3, 2] maxM0 (by decide) (by decide) (by decide))
      (by decide) (by decide)) 1 2

/-! ## C10: the safety loops terminate -/

@[simp] theorem countFalse_nil : countFalse [] = 0 := rfl

@[simp] theorem countFalse_cons_true (p : PInfo) (ts : List (PInfo × Bool)) :
    countFalse ((p, true) :: ts) = countFalse ts := by
  simp [countFalse]

@[simp] theorem countFalse_cons_false (p : PInfo) (ts : List (PInfo × Bool)) :
    countFalse ((p, false) :: ts) = countFalse ts + 1 := by
  simp [countFalse]

theorem contPass_count_le (ts : List (PInfo × Bool)) (work : List Int) :
    countFalse (contPass ts work).1 ≤ countFalse ts := by
  induction ts generalizing work with
  | nil => simp [contPass]
  | cons x rest ih =>
    obtain ⟨p, f⟩ := x
    simp only [contPass]
    split
    · rename_i hcond
      have hf : f = false := by
        cases f
        · rfl
        · simp at hcond
      subst hf
      have := ih (vecAdd work p.2)
      simp
      omega
    · cases f
      · have := ih work
        simp
        omega
      · have := ih work
        simp
        omega

theorem contPass_count_lt (ts : List (PInfo × Bool)) (work : List Int)
    (hfound : (contPass ts work).2.2 = true) :
    countFalse (contPass ts work).1 < countFalse ts := by
  induction ts generalizing work with
  | nil => simp [contPass] at hfound
  | cons x rest ih =>
    obtain ⟨p, f⟩ := x
    simp only [contPass] at hfound ⊢
    split
    · rename_i hcond
      have hf : f = false := by
        cases f
        · rfl
        · simp at hcond
      subst hf
      have := contPass_count_le rest (vecAdd work p.2)
      simp
      omega
    · rename_i hcond
      rw [if_neg hcond] at hfound
      have := ih work hfound
      cases f
      · simp; omega
      · simp; omega

theorem contLoop_total :
    ∀ (fuel : Nat) (ts : List (PInfo × Bool)) (work : List Int),
      countFalse ts < fuel → ∃ b, contLoop fuel ts work = some b := by
  intro fuel
  induction fuel with
  | zero => intro ts work h; omega
  | succ fuel ih =>
    intro ts work h
    simp only [contLoop]
    split
    · cases hfound : (contPass ts work).2.2
      · rw [if_neg (by simp [hfound])]
        exact ⟨false, rfl⟩
      · rw [if_pos rfl]
        have hlt := contPass_count_lt ts work hfound
        exact ih _ _ (by omega)
    · exact ⟨true, rfl⟩

@[simp] theorem countUnfin_nil : countUnfin [] = 0 := rfl

theorem countUnfin_cons (pid : String) (tp : TempProc) (tps : List (String × TempProc)) :
    countUnfin ((pid, tp) :: tps) =
      (if tp.finished then 0 else 1) + countUnfin tps := by
  cases h : tp.finished <;> simp [countUnfin, List.filter, h] <;> omega

theorem appPass_count_le (rkeys : List String) (tps : List (String × TempProc))
    (avail : List (String × Int)) :
    countUnfin (appPass rkeys tps avail).1 ≤ countUnfin tps := by
  induction tps generalizing avail with
  | nil => simp [appPass]
  | cons x rest ih =>
    obtain ⟨pid, tp⟩ := x
    simp only [appPass]
    split
    · rename_i hcond
      have := ih (addAlloc rkeys tp avail)
      rw [countUnfin_cons, countUnfin_cons]
      simp only [show ({ tp with finished := true } : TempProc).finished = true from rfl]
      simp
      omega
    · have := ih avail
      rw [countUnfin_cons, countUnfin_cons]
      omega

theorem appPass_count_lt (rkeys : List String) (tps : List (String × TempProc))
    (avail : List (String × Int))
    (hfound : (appPass rkeys tps avail).2.2 = true) :
    countUnfin (appPass rkeys tps avail).1 < countUnfin tps := by
  induction tps generalizing avail with
  | nil => simp [appPass] at hfound
  | cons x rest ih =>
    obtain ⟨pid, tp⟩ := x
    simp only [appPass] at hfound ⊢
    split
    · rename_i hcond
      have hf : tp.finished = false := by
        cases h : tp.finished
        · rfl
        · rw [h] at hcond; simp at hcond
      have := appPass_count_le rkeys rest (addAlloc rkeys tp avail)
      rw [countUnfin_cons, countUnfin_cons]
      simp only [show ({ tp with finished := true } : TempProc).finished = true from rfl, hf]
      simp
      omega
    · rename_i hcond
      rw [if_neg hcond] at hfound
      have := ih avail hfound
      rw [countUnfin_cons, countUnfin_cons]
      omega

theorem appSafeIter_total (rkeys : List String) :
    ∀ (fuel : Nat) (tps : List (String × TempProc)) (avail : List (String × Int)),
      countUnfin tps < fuel → ∃ b, appSafeIter rkeys fuel tps avail = some b := by
  intro fuel
  induction fuel with
  | zero => intro tps avail h; omega
  | succ fuel ih =>
    intro tps avail h
    simp only [appSafeIter]
    cases hfound : (appPass rkeys tps avail).2.2
    · rw [if_pos (by simp [hfound])]
      exact ⟨_, rfl⟩
    · rw [if_neg (by simp [hfound])]
      split
      · exact ⟨true, rfl⟩
      · have hlt := appPass_count_lt rkeys tps avail hfound
        exact ih _ _ (by omega)

/-- Claim C10: both implemented safety-check loops terminate — each loop
iteration either marks at least one previously unfinished process as
finished (strictly decreasing the unfinished count) or returns, so any
iteration budget exceeding the initial unfinished count is enough for the
loop to deliver an answer.  First conjunct: the `main.py` loop; second
conjunct: the `app.py` loop. -/
theorem C10_safety_loops_terminate :
    (∀ (ts : List (PInfo × Bool)) (work : List Int) (fuel : Nat),
      countFalse ts < fuel → ∃ b, contLoop fuel ts work = some b) ∧
    (∀ (rkeys : List String) (tps : List (String × TempProc))
      (avail : List (String × Int)) (fuel : Nat),
      countUnfin tps < fuel → ∃ b, appSafeIter rkeys fuel tps avail = some b) :=
  ⟨fun ts work fuel h => contLoop_total fuel ts work h,
   fun rkeys tps avail fuel h => appSafeIter_total rkeys fuel tps avail h⟩

/-- Claim C10 witness: both loops deliver an answer on the concrete states,
with the iteration budgets their callers use. -/
theorem C10_safety_loops_terminate_witness :
    (∃ b, contLoop ((mainTemps mState0).length + 1) (mainTemps mState0)
      mState0.available = some b) ∧
    (∃ b, appSafeIter ["R0"] (appSt2.processes.length + 1)
      (appSafeInit appSt2 "P0" [("R0", 2)]) (appSafeAvail appSt2) = some b) :=
  ⟨C10_safety_loops_terminate.1 (mainTemps mState0) mState0.available _ (by decide),
   C10_safety_loops_terminate.2 ["R0"] (appSafeInit appSt2 "P0" [("R0", 2)])
     (appSafeAvail appSt2) _ (by decide)⟩

/-! ## C6: restart-scan and continue-scan safety checks agree -/

theorem countFalse_append (l1 l2 : List (PInfo × Bool)) :
    countFalse (l1 ++ l2) = countFalse l1 + countFalse l2 := by
  simp [countFalse, List.filter_append]

theorem good_elem {m : Nat} {ts : List (PInfo × Bool)} (hg : Good m ts)
    {p : PInfo} {b : Bool} (h : (p, b) ∈ ts) :
    p.2.length = m ∧ ∀ v ∈ p.2, 0 ≤ v :=
  hg (p, b) h

theorem good_mid {m : Nat} {pre post : List (PInfo × Bool)} {p : PInfo} {b : Bool}
    (hg : Good m (pre ++ (p, b) :: post)) (b' : Bool) :
    Good m (pre ++ (p, b') :: post) := by
  intro x hx
  rcases List.mem_append.1 hx with h1 | h2
  · exact hg x (List.mem_append_left _ h1)
  · rcases List.mem_cons.1 h2 with rfl | h3
    · exact hg (p, b) (List.mem_append_right _ (List.mem_cons_self _ _))
    · exact hg x (List.mem_append_right _ (List.mem_cons_of_mem _ h3))

theorem restartFind_none :
    ∀ (ts : List (PInfo × Bool)) (work : List Int),
      restartFind ts work = none →
      ∀ p : PInfo, (p, false) ∈ ts → vecLe p.1 work = false := by
  intro ts
  induction ts with
  | nil => intro work _ p hp; simp at hp
  | cons x rest ih =>
    obtain ⟨q, f⟩ := x
    intro work h p hp
    simp only [restartFind] at h
    by_cases hcond : (!f && vecLe q.1 work) = true
    · rw [if_pos hcond] at h; simp at h
    · rw [if_neg hcond] at h
      rcases List.mem_cons.1 hp with heq | hmem
      · have hq : p = q := congrArg Prod.fst heq
        have hf : false = f := congrArg Prod.snd heq
        rw [hq]
        cases hv : vecLe q.1 work
        · rfl
        · exact absurd (by simp [hv, ← hf]) hcond
      · rcases hfind : restartFind rest work with _ | pr
        · exact ih work hfind p hmem
        · rw [hfind] at h
          obtain ⟨rest', w''⟩ := pr
          simp at h

theorem restartFind_some :
    ∀ (ts : List (PInfo × Bool)) (work : List Int) (ts' : List (PInfo × Bool))
      (w' : List Int), restartFind ts work = some (ts', w') →
      ∃ pre p post, ts = pre ++ (p, false) :: post ∧ vecLe p.1 work = true ∧
        ts' = pre ++ (p, true) :: post ∧ w' = vecAdd work p.2 := by
  intro ts
  induction ts with
  | nil => intro work ts' w' h; simp [restartFind] at h
  | cons x rest ih =>
    obtain ⟨q, f⟩ := x
    intro work ts' w' h
    simp only [restartFind] at h
    by_cases hcond : (!f && vecLe q.1 work) = true
    · rw [if_pos hcond] at h
      have hf : f = false := by
        cases f
        · rfl
        · simp at hcond
      have hrun : vecLe q.1 work = true := by
        cases hv : vecLe q.1 work
        · rw [hv] at hcond; simp at hcond
        · rfl
      obtain ⟨hts, hw⟩ : (q, true) :: rest = ts' ∧ vecAdd work q.2 = w' := by
        have := Option.some.inj h
        exact ⟨congrArg Prod.fst this, congrArg Prod.snd this⟩
      subst hf
      exact ⟨[], q, rest, by simp, hrun, hts.symm ▸ by simp, hw.symm⟩
    · rw [if_neg hcond] at h
      rcases hfind : restartFind rest work with _ | pr
      · rw [hfind] at h; simp at h
      · obtain ⟨rest', w''⟩ := pr
        rw [hfind] at h
        obtain ⟨hts, hw⟩ : (q, f) :: rest' = ts' ∧ w'' = w' := by
          have := Option.some.inj h
          exact ⟨congrArg Prod.fst this, congrArg Prod.snd this⟩
        obtain ⟨pre', p, post', hrest, hrun, hrest', hw''⟩ := ih work rest' w'' hfind
        refine ⟨(q, f) :: pre', p, post', by simp [hrest], hrun, ?_, ?_⟩
        · rw [← hts, hrest']; simp
        · rw [← hw, hw'']

theorem restartLoop_total :
    ∀ (fuel : Nat) (ts : List (PInfo × Bool)) (work : List Int),
      countFalse ts < fuel → ∃ b, restartLoop fuel ts work = some b := by
  intro fuel
  induction fuel with
  | zero => intro ts work h; omega
  | succ fuel ih =>
    intro ts work h
    simp only [restartLoop]
    by_cases hall : (ts.all fun t => t.2) = true
    · rw [if_pos hall]; exact ⟨true, rfl⟩
    · rw [if_neg hall]
      rcases hfind : restartFind ts work with _ | pr
      · exact ⟨false, rfl⟩
      · obtain ⟨ts', w'⟩ := pr
        obtain ⟨pre, p, post, heq, hrun, hts', hw'⟩ := restartFind_some ts work ts' w' hfind
        subst heq hts'
        apply ih
        simp only [countFalse_append, countFalse_cons_true, countFalse_cons_false] at h ⊢
        omega

/-- Exchange step: if some completion order exists from a state, then
greedily finishing any one runnable unfinished process first still leaves a
completion order — provided all allocation rows are nonnegative (work only
grows, so runnable processes stay runnable). -/
theorem canFinish_flip {m : Nat} {ts : List (PInfo × Bool)} {work : List Int}
    (hc : CanFinish ts work) :
    ∀ (pre : List (PInfo × Bool)) (p : PInfo) (post : List (PInfo × Bool)),
      ts = pre ++ (p, false) :: post → Good m ts → work.length = m →
      vecLe p.1 work = true →
      CanFinish (pre ++ (p, true) :: post) (vecAdd work p.2) := by
  induction hc with
  | done ts work hall =>
    intro pre p post heq hg hw hrun
    exfalso
    subst heq
    have := List.all_eq_true.1 hall (p, false) (by simp)
    simp at this
  | step pre1 p1 post1 work1 hrun1 hsub ih =>
    intro pre p post heq hg hw hrun
    have hp1mem : (p1, false) ∈ pre1 ++ (p1, false) :: post1 := by simp
    have hpmem : (p, false) ∈ pre1 ++ (p1, false) :: post1 := by rw [heq]; simp
    have hp1g := good_elem hg hp1mem
    have hpg := good_elem hg hpmem
    have hw1 : (vecAdd work1 p1.2).length = m := by
      rw [vecAdd_length, hw, hp1g.1]; omega
    rcases List.append_eq_append_iff.1 heq with ⟨mid, hpre, htail⟩ | ⟨mid, hpre, htail⟩
    · -- pre = pre1 ++ mid
      rcases mid with _ | ⟨y, mid⟩
      · -- same position
        simp at hpre htail
        obtain ⟨hp1p, hpost⟩ := htail
        subst hpre
        subst hpost
        subst hp1p
        exact hsub
      · -- p lies strictly after p1: (p1,false)::post1 = y :: (mid ++ (p,false)::post)
        obtain ⟨hy, hpost1⟩ := List.cons.inj htail
        subst hpre
        have hgsub : Good m (pre1 ++ (p1, true) :: post1) := good_mid hg true
        have heqsub : pre1 ++ (p1, true) :: post1 =
            (pre1 ++ (p1, true) :: mid) ++ (p, false) :: post := by
          rw [hpost1]; simp
        have hrun' : vecLe p.1 (vecAdd work1 p1.2) = true :=
          vecLe_vecAdd_right hrun (by rw [hp1g.1, hw]) hp1g.2
        have hres := ih (pre1 ++ (p1, true) :: mid) p post heqsub hgsub hw1 hrun'
        -- build the goal with a step at p1
        have hrun1' : vecLe p1.1 (vecAdd work1 p.2) = true :=
          vecLe_vecAdd_right hrun1 (by rw [hpg.1, hw]) hpg.2
        have hchild : CanFinish (pre1 ++ (p1, true) :: (mid ++ (p, true) :: post))
            (vecAdd (vecAdd work1 p.2) p1.2) := by
          rw [vecAdd_comm2]
          simpa using hres
        have := CanFinish.step pre1 p1 (mid ++ (p, true) :: post) (vecAdd work1 p.2)
          hrun1' hchild
        rw [← hy]
        simpa using this
    · -- pre1 = pre ++ mid
      rcases mid with _ | ⟨y, mid⟩
      · -- same position again
        simp at hpre htail
        obtain ⟨hp1p, hpost⟩ := htail
        subst hpre
        subst hpost
        subst hp1p
        exact hsub
      · -- p lies strictly before p1: (p,false)::post = y :: (mid ++ (p1,false)::post1)
        obtain ⟨hy, hpost⟩ := List.cons.inj htail
        subst hpre
        have hgsub : Good m ((pre ++ y :: mid) ++ (p1, true) :: post1) := good_mid hg true
        have heqsub : (pre ++ y :: mid) ++ (p1, true) :: post1 =
            pre ++ (p, false) :: (mid ++ (p1, true) :: post1) := by
          rw [← hy]; simp
        have hrun' : vecLe p.1 (vecAdd work1 p1.2) = true :=
          vecLe_vecAdd_right hrun (by rw [hp1g.1, hw]) hp1g.2
        have hres := ih pre p (mid ++ (p1, true) :: post1) heqsub hgsub hw1 hrun'
        have hrun1' : vecLe p1.1 (vecAdd work1 p.2) = true :=
          vecLe_vecAdd_right hrun1 (by rw [hpg.1, hw]) hpg.2
        have hchild : CanFinish ((pre ++ (p, true) :: mid) ++ (p1, true) :: post1)
            (vecAdd (vecAdd work1 p.2) p1.2) := by
          rw [vecAdd_comm2]
          simpa using hres
        have := CanFinish.step (pre ++ (p, true) :: mid) p1 post1 (vecAdd work1 p.2)
          hrun1' hchild
        rw [hpost]
        simpa using this

theorem all_of_not_any {ts : List (PInfo × Bool)}
    (h : (ts.any fun t => !t.2) = false) : (ts.all fun t => t.2) = true := by
  rw [List.all_eq_true]
  intro x hx
  cases hb : x.2
  · exfalso
    have : (ts.any fun t => !t.2) = true := List.any_eq_true.2 ⟨x, hx, by simp [hb]⟩
    simp [this] at h
  · rfl

theorem contPass_good (m : Nat) :
    ∀ (ts : List (PInfo × Bool)) (work : List Int), Good m ts → work.length = m →
      Good m (contPass ts work).1 ∧ (contPass ts work).2.1.length = m := by
  intro ts
  induction ts with
  | nil =>
    intro work _ hw
    exact ⟨fun x hx => absurd hx (by simp [contPass]), hw⟩
  | cons x rest ih =>
    obtain ⟨p, f⟩ := x
    intro work hg hw
    have hp := hg (p, f) (by simp)
    have hgrest : Good m rest := fun x hx => hg x (by simp [hx])
    simp only [contPass]
    split
    · have hw' : (vecAdd work p.2).length = m := by
        rw [vecAdd_length, hw, hp.1]; omega
      have hr := ih (vecAdd work p.2) hgrest hw'
      refine ⟨?_, hr.2⟩
      intro x hx
      rcases List.mem_cons.1 hx with rfl | hmem
      · exact hp
      · exact hr.1 x hmem
    · have hr := ih work hgrest hw
      refine ⟨?_, hr.2⟩
      intro x hx
      rcases List.mem_cons.1 hx with rfl | hmem
      · exact hp
      · exact hr.1 x hmem

theorem contPass_stuck :
    ∀ (ts : List (PInfo × Bool)) (work : List Int),
      (contPass ts work).2.2 = false →
      ∀ p : PInfo, (p, false) ∈ ts → vecLe p.1 work = false := by
  intro ts
  induction ts with
  | nil => intro work _ p hp; simp at hp
  | cons x rest ih =>
    obtain ⟨q, f⟩ := x
    intro work h p hp
    simp only [contPass] at h
    by_cases hcond : (!f && vecLe q.1 work) = true
    · rw [if_pos hcond] at h; simp at h
    · rw [if_neg hcond] at h
      rcases List.mem_cons.1 hp with heq | hmem
      · have hq : p = q := congrArg Prod.fst heq
        have hf : false = f := congrArg Prod.snd heq
        rw [hq]
        cases hv : vecLe q.1 work
        · rfl
        · exact absurd (by simp [hv, ← hf]) hcond
      · exact ih work h p hmem

theorem contPass_rev :
    ∀ (ts pre : List (PInfo × Bool)) (work : List Int),
      CanFinish (pre ++ (contPass ts work).1) (contPass ts work).2.1 →
      CanFinish (pre ++ ts) work := by
  intro ts
  induction ts with
  | nil => intro pre work h; simpa [contPass] using h
  | cons x rest ih =>
    obtain ⟨p, f⟩ := x
    intro pre work h
    simp only [contPass] at h
    by_cases hcond : (!f && vecLe p.1 work) = true
    · rw [if_pos hcond] at h
      have hf : f = false := by
        cases f
        · rfl
        · simp at hcond
      have hrun : vecLe p.1 work = true := by
        cases hv : vecLe p.1 work
        · rw [hv] at hcond; simp at hcond
        · rfl
      subst hf
      have h2 := ih (pre ++ [(p, true)]) (vecAdd work p.2)
        (by simpa [List.append_assoc] using h)
      exact CanFinish.step pre p rest work hrun (by simpa using h2)
    · rw [if_neg hcond] at h
      have h2 := ih (pre ++ [(p, f)]) work (by simpa [List.append_assoc] using h)
      simpa using h2

theorem contPass_canFinish (m : Nat) :
    ∀ (ts pre : List (PInfo × Bool)) (work : List Int),
      Good m (pre ++ ts) → work.length = m → CanFinish (pre ++ ts) work →
      CanFinish (pre ++ (contPass ts work).1) (contPass ts work).2.1 := by
  intro ts
  induction ts with
  | nil => intro pre work _ _ hc; simpa [contPass] using hc
  | cons x rest ih =>
    obtain ⟨p, f⟩ := x
    intro pre work hg hw hc
    simp only [contPass]
    split
    · rename_i hcond
      have hf : f = false := by
        cases f
        · rfl
        · simp at hcond
      have hrun : vecLe p.1 work = true := by
        cases hv : vecLe p.1 work
        · rw [hv] at hcond; simp at hcond
        · rfl
      subst hf
      have hflip := canFinish_flip hc pre p rest rfl hg hw hrun
      have hg' : Good m (pre ++ (p, true) :: rest) := good_mid hg true
      have halen : p.2.length = m :=
        (good_elem hg (show (p, false) ∈ pre ++ (p, false) :: rest by simp)).1
      have hw' : (vecAdd work p.2).length = m := by
        rw [vecAdd_length, hw, halen]; omega
      have hres := ih (pre ++ [(p, true)]) (vecAdd work p.2)
        (by simpa using hg') hw' (by simpa using hflip)
      simpa using hres
    · have hres := ih (pre ++ [(p, f)]) work (by simpa using hg) hw (by simpa using hc)
      simpa using hres

theorem contLoop_true_canFinish :
    ∀ (fuel : Nat) (ts : List (PInfo × Bool)) (work : List Int),
      contLoop fuel ts work = some true → CanFinish ts work := by
  intro fuel
  induction fuel with
  | zero => intro ts work h; simp [contLoop] at h
  | succ fuel ih =>
    intro ts work h
    simp only [contLoop] at h
    by_cases hany : (ts.any fun t => !t.2) = true
    · rw [if_pos hany] at h
      by_cases hfound : (contPass ts work).2.2 = true
      · rw [if_pos hfound] at h
        have h2 := ih _ _ h
        have := contPass_rev ts [] work (by simpa using h2)
        simpa using this
      · rw [if_neg hfound] at h
        simp at h
    · rw [if_neg hany] at h
      have hfalse : (ts.any fun t => !t.2) = false := by
        cases hv : ts.any fun t => !t.2
        · rfl
        · exact absurd hv hany
      exact CanFinish.done ts work (all_of_not_any hfalse)

theorem canFinish_contLoop (m : Nat) :
    ∀ (fuel : Nat) (ts : List (PInfo × Bool)) (work : List Int),
      countFalse ts < fuel → Good m ts → work.length = m → CanFinish ts work →
      contLoop fuel ts work = some true := by
  intro fuel
  induction fuel with
  | zero => intro ts work h; omega
  | succ fuel ih =>
    intro ts work hcount hg hw hc
    simp only [contLoop]
    by_cases hany : (ts.any fun t => !t.2) = true
    · rw [if_pos hany]
      by_cases hfound : (contPass ts work).2.2 = true
      · rw [if_pos hfound]
        have hlt := contPass_count_lt ts work hfound
        have hgw := contPass_good m ts work hg hw
        have hcf := contPass_canFinish m ts [] work (by simpa using hg) hw
          (by simpa using hc)
        exact ih _ _ (by omega) hgw.1 hgw.2 (by simpa using hcf)
      · rw [if_neg hfound]
        exfalso
        cases hc with
        | done ts work hall =>
          obtain ⟨x, hx, hxb⟩ := List.any_eq_true.1 hany
          have := List.all_eq_true.1 hall x hx
          simp [this] at hxb
        | step pre p post work hrun hsub =>
          have hfound' : (contPass (pre ++ (p, false) :: post) work).2.2 = false := by
            cases hv : (contPass (pre ++ (p, false) :: post) work).2.2
            · rfl
            · exact absurd hv hfound
          have := contPass_stuck _ work hfound' p (by simp)
          simp [hrun] at this
    · rw [if_neg hany]

theorem restartLoop_true_canFinish :
    ∀ (fuel : Nat) (ts : List (PInfo × Bool)) (work : List Int),
      restartLoop fuel ts work = some true → CanFinish ts work := by
  intro fuel
  induction fuel with
  | zero => intro ts work h; simp [restartLoop] at h
  | succ fuel ih =>
    intro ts work h
    simp only [restartLoop] at h
    by_cases hall : (ts.all fun t => t.2) = true
    · exact CanFinish.done ts work hall
    · rw [if_neg hall] at h
      rcases hfind : restartFind ts work with _ | pr
      · rw [hfind] at h; simp at h
      · obtain ⟨ts', w'⟩ := pr
        rw [hfind] at h
        obtain ⟨pre, p, post, heq, hrun, hts', hw'⟩ := restartFind_some ts work ts' w' hfind
        subst heq hts' hw'
        exact CanFinish.step pre p post work hrun (ih _ _ h)

theorem canFinish_restartLoop (m : Nat) :
    ∀ (fuel : Nat) (ts : List (PInfo × Bool)) (work : List Int),
      countFalse ts < fuel → Good m ts → work.length = m → CanFinish ts work →
      restartLoop fuel ts work = some true := by
  intro fuel
  induction fuel with
  | zero => intro ts work h; omega
  | succ fuel ih =>
    intro ts work hcount hg hw hc
    simp only [restartLoop]
    by_cases hall : (ts.all fun t => t.2) = true
    · rw [if_pos hall]
    · rw [if_neg hall]
      rcases hfind : restartFind ts work with _ | pr
      · exfalso
        cases hc with
        | done ts work h2 => exact hall h2
        | step pre p post work hrun hsub =>
          have := restartFind_none _ work hfind p (by simp)
          simp [hrun] at this
      · obtain ⟨ts', w'⟩ := pr
        obtain ⟨pre, p, post, heq, hrun, hts', hw'⟩ := restartFind_some ts work ts' w' hfind
        subst heq hts' hw'
        have hpg := good_elem hg (show (p, false) ∈ pre ++ (p, false) :: post by simp)
        apply ih
        · simp only [countFalse_append, countFalse_cons_true, countFalse_cons_false]
            at hcount ⊢
          omega
        · exact good_mid hg true
        · rw [vecAdd_length, hw, hpg.1]; omega
        · exact canFinish_flip hc pre p post rfl hg hw hrun

/-- On any snapshot whose allocation rows are nonnegative and well-shaped,
the continue-scan loop and the restart-scan loop deliver the same answer:
both return `true` exactly when some completion order finishes every
process. -/
theorem cont_eq_restart (ts : List (PInfo × Bool)) (work : List Int)
    (hg : Good work.length ts) :
    (contLoop (countFalse ts + 1) ts work).getD false =
      (restartLoop (countFalse ts + 1) ts work).getD false := by
  obtain ⟨b1, h1⟩ := contLoop_total (countFalse ts + 1) ts work (by omega)
  obtain ⟨b2, h2⟩ := restartLoop_total (countFalse ts + 1) ts work (by omega)
  rw [h1, h2]
  cases b1 with
  | true =>
    cases b2 with
    | true => rfl
    | false =>
      exfalso
      have hc := contLoop_true_canFinish _ _ _ h1
      have := canFinish_restartLoop work.length (countFalse ts + 1) ts work
        (by omega) hg rfl hc
      rw [h2] at this
      simp at this
  | false =>
    cases b2 with
    | false => rfl
    | true =>
      exfalso
      have hc := restartLoop_true_canFinish _ _ _ h2
      have := canFinish_contLoop work.length (countFalse ts + 1) ts work
        (by omega) hg rfl hc
      rw [h1] at this
      simp at this

theorem countFalse_mainTemps (s : MainState) :
    countFalse (mainTemps s) = (mainTemps s).length := by
  unfold mainTemps countFalse
  induction s.need.zip s.allocation with
  | nil => rfl
  | cons x l ih => simpa using ih

theorem good_mainTemps (s : MainState)
    (hrows : ∀ row ∈ s.allocation, row.length = s.available.length)
    (hpos : ∀ row ∈ s.allocation, ∀ v ∈ row, 0 ≤ v) :
    Good s.available.length (mainTemps s) := by
  intro x hx
  obtain ⟨pr, hpr, rfl⟩ := List.mem_map.1 hx
  have hmem : pr.2 ∈ s.allocation := (List.of_mem_zip hpr).2
  exact ⟨hrows pr.2 hmem, hpos pr.2 hmem⟩

/-- Claim C6: on every snapshot of the data model (allocation rows
nonnegative and of the resource-vector length), the spec's restart-scan
variant of the Banker's safety check and the implemented continue-scan
variant `is_safe_state` return the same boolean answer. -/
theorem C6_restart_scan_equals_continue_scan (s : MainState)
    (hrows : ∀ row ∈ s.allocation, row.length = s.available.length)
    (hpos : ∀ row ∈ s.allocation, ∀ v ∈ row, 0 ≤ v) :
    specRestartSafe (mainTemps s) s.available = is_safe_state s := by
  unfold specRestartSafe is_safe_state
  rw [show (mainTemps s).length = countFalse (mainTemps s) from
    (countFalse_mainTemps s).symm]
  exact (cont_eq_restart (mainTemps s) s.available (good_mainTemps s hrows hpos)).symm

/-- Claim C6 witness: the two variants agree on the initialized textbook
system of `main.py`. -/
theorem C6_restart_scan_equals_continue_scan_witness :
    specRestartSafe (mainTemps mState0) mState0.available = is_safe_state mState0 :=
  C6_restart_scan_equals_continue_scan mState0 (by decide) (by decide)

/-! ## C2, C3, C4: concrete evaluations of the `app.py` defects -/

/-- Claim C2: in `app.py`, a request that passes the need and availability
checks reaches the safety test with a scratch snapshot whose work vector is
derived from the LIVE allocations, not the tentative ones.  At the concrete
state `appSt2` with request `P0 += 1` of `R0`, the tentative allocation
built by `request_resource` is `{R0: 2}`, and the scratch snapshot then
satisfies `sum of allocations + available = capacity + 1`, violating the
conservation `sum + available = capacity` the claim asserts; the request is
nevertheless granted. -/
theorem C2_scratch_snapshot_breaks_conservation :
    dset (pgetD appSt2 "P0").allocated "R0"
        (dget (pgetD appSt2 "P0").allocated "R0" + 1) = [("R0", 2)] ∧
    ((appSafeInit appSt2 "P0" [("R0", 2)]).map (fun t => dget t.2.allocated "R0")).sum +
        dget (appSafeAvail appSt2) "R0" = dget appSt2.resources "R0" + 1 ∧
    (appRequest appSt2 "P0" "R0" 1).2 = true := by
  decide

/-- Claim C3: `recover_deadlock` in `app.py` increases the capacity record
`self.resources` by the victim's allocation besides zeroing the allocation
row.  On the concrete deadlocked state `appSt3` (capacity 2 of `R0`, victim
`P0` holding 1), recovery terminates `P0`, zeroes its row — and raises the
recorded capacity from 2 to 3, so the reclaimed unit is double-counted in
the derived availability. -/
theorem C3_recover_inflates_capacity :
    appDetect appSt3 = ["P0"] ∧
    appSt3.resources = [("R0", 2)] ∧
    (appRecover appSt3).1.resources = [("R0", 3)] ∧
    (pgetD (appRecover appSt3).1 "P0").allocated = [("R0", 0)] ∧
    (pgetD (appRecover appSt3).1 "P0").status = "Terminated" ∧
    (appRecover appSt3).2 = "Terminated process P0 to recover from deadlock" := by
  decide

/-- Claim C4: `request_resource` in `app.py` compares the requested amount
against the fixed maximum claim `max_needed`, not the remaining need.  At
the concrete state `appSt4`, process `P0` has remaining need 1 of `R0`, yet
its request for 2 units (within availability) is granted, leaving `P0`
holding 4 units against a maximum claim of 3. -/
theorem C4_request_exceeding_need_granted :
    needOf appSt4 "P0" "R0" = 1 ∧
    dget (pgetD appSt4 "P0").max_needed "R0" = 3 ∧
    (2 : Int) ≤ appAvailable appSt4 "R0" ∧
    (appRequest appSt4 "P0" "R0" 2).2 = true ∧
    dget (pgetD (appRequest appSt4 "P0" "R0" 2).1 "P0").allocated "R0" = 4 := by
  decide

/-! ## C8: the wait-for traversal has no self-edge restriction -/

theorem earlyExitFold_const {α σ : Type} (f : α → σ → Bool × σ) {x : α} :
    ∀ (xs : List α), x ∈ xs → (∀ s, (f x s).1 = true) →
      ∀ s, (earlyExitFold f xs s).1 = true := by
  intro xs
  induction xs with
  | nil => intro hx; simp at hx
  | cons y ys ih =>
    intro hx hconst s
    simp only [earlyExitFold]
    by_cases hr : (f y s).1 = true
    · rw [if_pos hr]
    · rw [if_neg hr]
      rcases List.mem_cons.1 hx with rfl | hmem
      · exact absurd (hconst s) hr
      · exact ih hmem hconst _

/-- Claim C8 counterexample: in state `appSt8` the only process `P0` has
positive unmet need for `R0`, and the only holder of `R0` is `P0` itself;
the claim says such a process is not reported, but `detect_deadlock`
reports exactly `[P0]` (the traversal follows the self-edge `P0 → P0`). -/
theorem C8_counterexample :
    appSt8.processes.map (fun pp => pp.1) = ["P0"] ∧
    0 < needOf appSt8 "P0" "R0" ∧
    0 < allocOf appSt8 "P0" "R0" ∧
    appDetect appSt8 = ["P0"] := by
  decide

/-- Claim C8 (amended): the wait-for traversal of `detect_deadlock` in
`app.py` imposes no `p ≠ q` restriction: any process that still needs more
of a resource it already partly holds reaches itself in one step and is
always reported deadlocked. -/
theorem C8_self_wait_always_detected (st : AppState) (pid rid : String)
    (hpid : pid ∈ st.processes.map (fun pp => pp.1))
    (hrid : rid ∈ st.resources.map (fun rc => rc.1))
    (hneed : 0 < needOf st pid rid)
    (hhold : 0 < allocOf st pid rid) :
    pid ∈ appDetect st := by
  unfold appDetect
  rw [List.mem_filter]
  refine ⟨hpid, ?_⟩
  show (hasCycle st (st.processes.length + 2) pid [] []).1 = true
  rw [show st.processes.length + 2 = (st.processes.length + 1) + 1 from rfl]
  simp only [hasCycle]
  rw [if_neg (by simp), if_neg (by simp)]
  have hwmem : rid ∈ waiting st pid := by
    unfold waiting
    rw [List.mem_filter]
    exact ⟨hrid, by simp [hneed]⟩
  apply earlyExitFold_const _ _ hwmem
  intro vis
  apply earlyExitFold_const _ _ hpid
  intro vis2
  rw [if_pos hhold]
  show (hasCycle st (st.processes.length + 1) pid ([] ++ [pid]) vis2).1 = true
  rw [show st.processes.length + 1 = st.processes.length + 1 from rfl]
  simp only [hasCycle]
  rw [if_pos (by simp)]

/-- Claim C8 witness: the amended statement at the concrete state
`appSt8`. -/
theorem C8_self_wait_always_detected_witness : "P0" ∈ appDetect appSt8 :=
  C8_self_wait_always_detected appSt8 "P0" "R0" (by decide) (by decide) (by decide)
    (by decide)

/-! ## C9: the safety check never reads process status -/

theorem appSafeInit_mapStatus (f : String → String) (st : AppState) (pid : String)
    (ta : List (String × Int)) :
    appSafeInit (mapStatus f st) pid ta = appSafeInit st pid ta := by
  have key : ∀ (l : List (String × AppProc)),
      (l.map (fun pp => (pp.1, { pp.2 with status := f pp.1 }))).map
        (fun pp => (pp.1, (⟨if pp.1 = pid then ta else pp.2.allocated,
          pp.2.max_needed, false⟩ : TempProc))) =
      l.map (fun pp => (pp.1, (⟨if pp.1 = pid then ta else pp.2.allocated,
        pp.2.max_needed, false⟩ : TempProc))) := by
    intro l
    induction l with
    | nil => rfl
    | cons x xs ih =>
      simp only [List.map_cons]
      rw [ih]
  exact key st.processes

theorem appSafeAvail_mapStatus (f : String → String) (st : AppState) :
    appSafeAvail (mapStatus f st) = appSafeAvail st := by
  show st.resources.map _ = st.resources.map _
  simp only [mapStatus, List.map_map]
  rfl

/-- Claim C9 counterexample: `appSt9r` is `appSt9` with its Terminated
process removed (same resources), yet the safety check answers `false` on
`appSt9` and `true` on `appSt9r`: the Terminated process `P0`, with maximum
claim 5 against capacity 3 and zero allocation, makes the state unsafe even
though the claim says Terminated processes are treated as finished. -/
theorem C9_counterexample :
    (pgetD appSt9 "P0").status = "Terminated" ∧
    appSt9r.processes = appSt9.processes.filter (fun pp => !(pp.2.status = "Terminated")) ∧
    appSt9r.resources = appSt9.resources ∧
    appIsSafe appSt9 "P1" [("R0", 0)] = false ∧
    appIsSafe appSt9r "P1" [("R0", 0)] = true := by
  decide

/-- Claim C9 (amended): `is_safe_state` in `app.py` never reads the
`status` field: its answer is invariant under every modification of the
status fields, so Terminated processes are treated exactly like Running
ones — in particular they still contribute `max_needed - allocated` to the
need and are NOT treated as already finished. -/
theorem C9_safety_check_ignores_status (f : String → String) (st : AppState)
    (pid : String) (ta : List (String × Int)) :
    appIsSafe (mapStatus f st) pid ta = appIsSafe st pid ta := by
  unfold appIsSafe
  rw [appSafeInit_mapStatus, appSafeAvail_mapStatus]
  have h2 : (mapStatus f st).processes.length = st.processes.length := by
    show (st.processes.map _).length = _
    rw [List.length_map]
  rw [h2]
  rfl

end DeadlockPrevention
